import Mathlib

/-!
# Habit-flow: verification of the progress/streak/completion-rate logic

Shallow embedding of the date-arithmetic core of the Habit-flow repository
(Express/Mongoose habit tracker): the `Habit` model virtuals
(`completionRate`, `currentStreak`), the `Progress` model
(pre-save middleware, `createOrUpdate`, `getCurrentStreak`,
`calculateCompletionRate`), the `Group` model (pre-save middleware,
`addMember`/`removeMember`) with its controller operations
(create/update/join/leave), and the `logProgress` / `deleteHabit`
controllers.

Conventions of the embedding:
* JavaScript `Date` values are integer milliseconds since the epoch (`Int`).
  `setHours(0,0,0,0)` normalizes to the start of the day; the deployment's
  local timezone is modelled as UTC (offset zero), so normalization is
  flooring to a multiple of `dayMs`.  All claims below are uniform in that
  choice.
* Mongo ObjectIds are `Nat`, compared by value (Mongoose array `includes`
  on ObjectId paths compares by value).
* `null`/`undefined` become `Option`; fallible operations return a result
  code mirroring the HTTP status the controller sends.
-/

/-- Milliseconds in one calendar day, the constant `1000*60*60*24` used
throughout the source. -/
def dayMs : Int := 86400000

/-- `date.setHours(0,0,0,0)`: normalize a timestamp to the start of its
calendar day (floor to a multiple of `dayMs`). -/
def startOfDay (t : Int) : Int := dayMs * (t.fdiv dayMs)

theorem startOfDay_idem (t : Int) : startOfDay (startOfDay t) = startOfDay t := by
  unfold startOfDay
  rw [Int.mul_fdiv_cancel_left _ (by decide : (dayMs : Int) ≠ 0)]

theorem startOfDay_mul (k : Int) : startOfDay (dayMs * k) = dayMs * k := by
  unfold startOfDay
  rw [Int.mul_fdiv_cancel_left _ (by decide : (dayMs : Int) ≠ 0)]

/-- A normalized day is a multiple of `dayMs`. -/
theorem startOfDay_dvd (t : Int) : dayMs ∣ startOfDay t := ⟨t.fdiv dayMs, rfl⟩

/-! ## Habit model (src/unnamed/part_006)

`completionDates` is the habit's list of completion `Date`s; the creation
timestamp `createdAt` is stamped by Mongoose, the configured `duration` is
validated to lie in `[1, 365]`.
-/

/-- `habitSchema.virtual('completionRate')`: percentage of expected
completions, where `daysSinceCreation = floor((now - createdAt)/dayMs) + 1`
and `expectedCompletions = min(daysSinceCreation, duration)`; the result is
clamped at 100. -/
def completionRate (now createdAt : Int) (duration : Nat) (completionDates : List Int) : ℚ :=
  if completionDates.length = 0 then 0
  else
    let daysSinceCreation : Int := (now - createdAt).fdiv dayMs + 1
    let expectedCompletions : Int := min daysSinceCreation (duration : Int)
    if expectedCompletions = 0 then 0
    else min (((completionDates.length : ℚ) / (expectedCompletions : ℚ)) * 100) 100

/-- Stable insertion step for sorting timestamps in descending order
(the comparator `(a, b) => b - a`). -/
def insertDesc (x : Int) : List Int → List Int
  | [] => [x]
  | y :: ys => if x > y then x :: y :: ys else y :: insertDesc x ys

/-- `completionDates.sort((a, b) => b - a)`: sort descending. -/
def sortDesc (l : List Int) : List Int := l.foldr insertDesc []

/-- The walk of `habitSchema.virtual('currentStreak')`: `checkDate` starts at
today's midnight; a completion day matching `checkDate`, or matching
`checkDate + dayMs` (the branch the source comments as the
"yesterday" tolerance), increments the streak and moves `checkDate` one day
back; anything else stops the walk. -/
def streakGo (checkDate : Int) : List Int → Nat
  | [] => 0
  | d :: rest =>
    let completionDay := startOfDay d
    if completionDay = checkDate then
      streakGo (checkDate - dayMs) rest + 1
    else if completionDay = checkDate + dayMs then
      streakGo (checkDate - dayMs) rest + 1
    else 0

/-- `habitSchema.virtual('currentStreak')`: 0 on an empty list, otherwise the
walk over the dates sorted descending, starting from today's midnight. -/
def currentStreak (now : Int) (completionDates : List Int) : Nat :=
  if completionDates.length = 0 then 0
  else streakGo (startOfDay now) (sortDesc completionDates)

theorem mem_insertDesc {x y : Int} {l : List Int} :
    y ∈ insertDesc x l → y = x ∨ y ∈ l := by
  induction l with
  | nil => simp [insertDesc]
  | cons z zs ih =>
    simp only [insertDesc]
    split
    · intro h
      rcases List.mem_cons.mp h with h | h
      · exact Or.inl h
      · exact Or.inr h
    · intro h
      rcases List.mem_cons.mp h with h | h
      · exact Or.inr (List.mem_cons.mpr (Or.inl h))
      · rcases ih h with h | h
        · exact Or.inl h
        · exact Or.inr (List.mem_cons.mpr (Or.inr h))

theorem mem_sortDesc {y : Int} {l : List Int} : y ∈ sortDesc l → y ∈ l := by
  induction l with
  | nil => simp [sortDesc]
  | cons z zs ih =>
    intro h
    rcases mem_insertDesc h with h | h
    · exact List.mem_cons.mpr (Or.inl h)
    · exact List.mem_cons.mpr (Or.inr (ih h))

theorem insertDesc_ne_nil (x : Int) (l : List Int) : insertDesc x l ≠ [] := by
  cases l with
  | nil => simp [insertDesc]
  | cons y ys => simp only [insertDesc]; split <;> simp

theorem sortDesc_cons_ne_nil (z : Int) (zs : List Int) : sortDesc (z :: zs) ≠ [] := by
  simp only [sortDesc, List.foldr]
  exact insertDesc_ne_nil z (List.foldr insertDesc [] zs)

/-! ## Progress model (src/backend/models/Progress.js)

A ledger row: `(habit, user, date, completed, completedAt, notes, value,
streak, isLateEntry)`.  The compound index
`{ habit: 1, user: 1, date: 1 } (unique)` is the per-day uniqueness
constraint the claims refer to.
-/

structure PEntry where
  habit : Nat
  user : Nat
  date : Int
  completed : Bool
  completedAt : Option Int
  notes : String
  value : Option Int
  streak : Nat
  isLateEntry : Bool
deriving Repr, DecidableEq

/-- `progressSchema.pre('save')`: stamp `completedAt` on a completed entry
that lacks one, clear it on an incomplete entry, recompute `isLateEntry`
(completed on a different calendar day than the target date), and normalize
`date` to the start of its day.  `now` is the wall clock used for
`new Date()`. -/
def preSave (now : Int) (e : PEntry) : PEntry :=
  let e1 := if e.completed ∧ e.completedAt = none then { e with completedAt := some now } else e
  let e2 := if ¬e1.completed ∧ e1.completedAt ≠ none then { e1 with completedAt := none } else e1
  let e3 :=
    match e2.completedAt with
    | some c =>
      if e2.completed then
        { e2 with isLateEntry := startOfDay c ≠ startOfDay e2.date }
      else e2
    | none => e2
  { e3 with date := startOfDay e3.date }

/-- `progressSchema.methods.toggleCompletion`: flip `completed`, then save. -/
def toggleCompletion (now : Int) (e : PEntry) : PEntry :=
  preSave now { e with completed := !e.completed }

/-- `progressSchema.methods.markCompleted`: set `completed` and `completedAt`,
optionally overwrite `value` and `notes`, then save. -/
def markCompleted (now : Int) (value : Option Int) (notes : String) (e : PEntry) : PEntry :=
  let e1 := { e with completed := true, completedAt := some now }
  let e2 := if value ≠ none then { e1 with value := value } else e1
  let e3 := if notes ≠ "" then { e2 with notes := notes } else e2
  preSave now e3

/-- `progressSchema.methods.markIncomplete`: clear `completed` and
`completedAt`, then save. -/
def markIncomplete (now : Int) (e : PEntry) : PEntry :=
  preSave now { e with completed := false, completedAt := none }

/-- The `findOne` filter of `Progress.createOrUpdate`: same user and habit,
and `date` within `[targetDate, targetDate + dayMs)`. -/
def upsertMatch (userId habitId : Nat) (targetDate : Int) (e : PEntry) : Bool :=
  e.user = userId ∧ e.habit = habitId ∧ targetDate ≤ e.date ∧ e.date < targetDate + dayMs

/-- Field update performed by `Progress.createOrUpdate` on an existing entry
before saving it: overwrite `completed`; overwrite `value` when the argument
is not null and `notes` when non-empty; stamp `completedAt` when marking
completed without a stamp, clear it when marking incomplete. -/
def upsertUpdate (now : Int) (completed : Bool) (value : Option Int) (notes : String)
    (e : PEntry) : PEntry :=
  let e1 := { e with completed := completed }
  let e2 := if value ≠ none then { e1 with value := value } else e1
  let e3 := if notes ≠ "" then { e2 with notes := notes } else e2
  if completed ∧ e3.completedAt = none then { e3 with completedAt := some now }
  else if ¬completed then { e3 with completedAt := none }
  else e3

/-- The document created by `Progress.createOrUpdate` when no entry matches:
a fresh row at the normalized date with `completedAt` set iff `completed`. -/
def upsertFresh (now : Int) (userId habitId : Nat) (targetDate : Int) (completed : Bool)
    (value : Option Int) (notes : String) : PEntry :=
  { habit := habitId, user := userId, date := targetDate, completed := completed,
    completedAt := if completed then some now else none,
    notes := notes, value := value, streak := 0, isLateEntry := false }

/-- Walk of `Progress.createOrUpdate` over the ledger: update the first
matching row in place (Mongo `findOne` returns the first match), otherwise
append the freshly created row; every written row passes through the save
middleware.  Returns the saved row and the new ledger. -/
def upsertGo (now : Int) (userId habitId : Nat) (targetDate : Int) (completed : Bool)
    (value : Option Int) (notes : String) : List PEntry → PEntry × List PEntry
  | [] =>
    let saved := preSave now (upsertFresh now userId habitId targetDate completed value notes)
    (saved, [saved])
  | e :: rest =>
    if upsertMatch userId habitId targetDate e then
      let saved := preSave now (upsertUpdate now completed value notes e)
      (saved, saved :: rest)
    else
      let r := upsertGo now userId habitId targetDate completed value notes rest
      (r.1, e :: r.2)

/-- `Progress.createOrUpdate(userId, habitId, date, completed, value, notes)`:
normalize `date` to the start of its day, then update the existing
`(user, habit, day)` row or insert a new one. -/
def createOrUpdate (now : Int) (ledger : List PEntry) (userId habitId : Nat) (date : Int)
    (completed : Bool) (value : Option Int) (notes : String) : PEntry × List PEntry :=
  upsertGo now userId habitId (startOfDay date) completed value notes ledger

/-- Stable insertion step for sorting ledger rows by `date` descending
(`.sort(\x7b date: -1 \x7d)`). -/
def insertEntryDesc (x : PEntry) : List PEntry → List PEntry
  | [] => [x]
  | y :: ys => if x.date > y.date then x :: y :: ys else y :: insertEntryDesc x ys

/-- Sort ledger rows by `date` descending. -/
def sortEntriesDesc (l : List PEntry) : List PEntry := l.foldr insertEntryDesc []

/-- Walk of `Progress.getCurrentStreak`: with `today` at midnight, an entry
whose day is exactly `streak` days before today and which is completed
extends the streak; the first other entry stops the walk. -/
def currentStreakEntriesGo (today : Int) (streak : Nat) : List PEntry → Nat
  | [] => streak
  | e :: rest =>
    let entryDate := startOfDay e.date
    let daysDiff := (today - entryDate).fdiv dayMs
    if daysDiff = (streak : Int) ∧ e.completed then
      currentStreakEntriesGo today (streak + 1) rest
    else streak

/-- `Progress.getCurrentStreak(userId, habitId)`: the walk over the user's
entries for the habit, sorted by date descending and limited to 365 rows. -/
def getCurrentStreak (now : Int) (ledger : List PEntry) (userId habitId : Nat) : Nat :=
  let entries :=
    (sortEntriesDesc (ledger.filter fun e => e.user = userId ∧ e.habit = habitId)).take 365
  currentStreakEntriesGo (startOfDay now) 0 entries

/-- The `countDocuments` query of `Progress.calculateCompletionRate`: rows of
the user for the habit dated within `[startDate, endDate]`. -/
def inWindow (userId habitId : Nat) (startDate endDate : Int) (e : PEntry) : Bool :=
  decide (e.user = userId) && decide (e.habit = habitId) &&
    decide (startDate ≤ e.date) && decide (e.date ≤ endDate)

/-- `Progress.calculateCompletionRate(userId, habitId, days)`: percentage of
completed rows among the user's rows for the habit dated within the last
`days` days. -/
def calculateCompletionRate (now : Int) (ledger : List PEntry) (userId habitId : Nat)
    (days : Nat) : ℚ :=
  let startDate := now - (days : Int) * dayMs
  let totalEntries := (ledger.filter (inWindow userId habitId startDate now)).length
  let completedEntries :=
    (ledger.filter fun e => inWindow userId habitId startDate now e && e.completed).length
  if totalEntries > 0 then ((completedEntries : ℚ) / (totalEntries : ℚ)) * 100 else 0

/-! ## Group model (src/unnamed/part_005) and group controller (src/unnamed/part_004) -/

structure GroupSettings where
  allowMemberInvites : Bool
  allowMemberHabitCreation : Bool
  requireApprovalForJoining : Bool
deriving Repr, DecidableEq

structure GroupDoc where
  name : String
  description : String
  members : List Nat
  habits : List Nat
  creator : Nat
  isPrivate : Bool
  maxMembers : Nat
  inviteCode : Option String
  tags : List String
  settings : GroupSettings
  isActive : Bool
deriving Repr, DecidableEq

/-- First-occurrence deduplication, the effect of
`[...new Set(array.map(x => x.toString()))]`. -/
def dedup : List Nat → List Nat
  | [] => []
  | x :: xs => x :: (dedup xs).filter (· ≠ x)

/-- `groupSchema.virtual('isFull')`: `memberCount >= maxMembers`. -/
def groupIsFull (g : GroupDoc) : Bool := g.members.length ≥ g.maxMembers

/-- `groupSchema.pre('save')`: generate an invite code for public groups that
lack one (`fresh` stands for the random code), push the creator into
`members` when absent, and deduplicate the `members` and `habits` arrays.
-/
def groupPreSave (fresh : String) (g : GroupDoc) : GroupDoc :=
  let g1 := if g.inviteCode = none ∧ ¬g.isPrivate then { g with inviteCode := some fresh } else g
  let g2 := if ¬g1.members.contains g1.creator
            then { g1 with members := g1.members ++ [g1.creator] } else g1
  let g3 := { g2 with members := dedup g2.members }
  { g3 with habits := dedup g3.habits }

/-- `groupSchema.methods.addMember`: throw when the group is full, otherwise
push the user when absent and save. -/
def addMember (fresh : String) (userId : Nat) (g : GroupDoc) : Except String GroupDoc :=
  if groupIsFull g then .error "Group is full"
  else
    let g1 := if ¬g.members.contains userId then { g with members := g.members ++ [userId] } else g
    .ok (groupPreSave fresh g1)

/-- `groupSchema.methods.removeMember`: filter the user out of `members` and
save. -/
def removeMember (fresh : String) (userId : Nat) (g : GroupDoc) : GroupDoc :=
  groupPreSave fresh { g with members := g.members.filter (· ≠ userId) }

/-- Outcome of a group-controller request, tagged with the HTTP status the
controller sends. -/
inductive GroupResult where
  | notFound
  | alreadyMember
  | full
  | invalidInvite
  | notMember
  | creatorCannotLeave
  | notAuthorized
  | validationFailed
  | ok
deriving Repr, DecidableEq

/-- The HTTP status attached to each `GroupResult` by the controller in
src/unnamed/part_004. -/
def groupResultStatus : GroupResult → Nat
  | .notFound => 404
  | .alreadyMember => 400
  | .full => 400
  | .invalidInvite => 403
  | .notMember => 400
  | .creatorCannotLeave => 403
  | .notAuthorized => 403
  | .validationFailed => 500
  | .ok => 200

/-- `createGroup` (src/unnamed/part_004): build a group with the caller as
creator and sole member and save it; schema validation requires
`1 ≤ maxMembers ≤ 1000` (`maxMembers` defaults to 50 when absent). -/
def createGroup (fresh : String) (creatorId : Nat) (name description : String)
    (isPrivate : Bool) (maxMembers : Option Nat) (tags : List String) :
    Except GroupResult GroupDoc :=
  if maxMembers.getD 50 < 1 ∨ maxMembers.getD 50 > 1000 then .error .validationFailed
  else
    .ok (groupPreSave fresh
      { name := name, description := description, members := [creatorId], habits := [],
        creator := creatorId, isPrivate := isPrivate, maxMembers := maxMembers.getD 50,
        inviteCode := none,
        tags := tags,
        settings := { allowMemberInvites := true, allowMemberHabitCreation := true,
                      requireApprovalForJoining := false },
        isActive := true })

/-- `updateGroup` (src/unnamed/part_004): creator-only; overwrite the provided
fields through `findByIdAndUpdate` (which bypasses the save middleware and
leaves `members` untouched); `runValidators` rejects a `maxMembers` outside
`[1, 1000]`. -/
def updateGroup (callerId : Nat) (name description : Option String) (isPrivate : Option Bool)
    (maxMembers : Option Nat) (tags : Option (List String)) (settings : Option GroupSettings)
    (g : GroupDoc) : GroupResult × GroupDoc :=
  if g.creator ≠ callerId then (.notAuthorized, g)
  else if maxMembers.any (fun m => m < 1 || m > 1000) then (.validationFailed, g)
  else
    let g1 := { g with name := name.getD g.name, description := description.getD g.description,
                       isPrivate := isPrivate.getD g.isPrivate,
                       maxMembers := maxMembers.getD g.maxMembers,
                       tags := tags.getD g.tags, settings := settings.getD g.settings }
    (.ok, g1)

/-- `joinGroup` (src/unnamed/part_004): 404 on a missing or inactive group,
400 when already a member, 400 when the group is full, 403 on a bad invite
code for a private group; otherwise `addMember` and succeed. -/
def joinGroup (fresh : String) (userId : Nat) (inviteCode : Option String)
    (g : GroupDoc) : GroupResult × GroupDoc :=
  if ¬g.isActive then (.notFound, g)
  else if g.members.contains userId then (.alreadyMember, g)
  else if groupIsFull g then (.full, g)
  else if g.isPrivate ∧ (inviteCode = none ∨ ¬inviteCode = g.inviteCode) then
    (.invalidInvite, g)
  else
    match addMember fresh userId g with
    | .ok g1 => (.ok, g1)
    | .error _ => (.validationFailed, g)

/-- `leaveGroup` (src/unnamed/part_004): 400 when not a member, 403 when the
caller is the creator; otherwise `removeMember`. -/
def leaveGroup (fresh : String) (userId : Nat) (g : GroupDoc) : GroupResult × GroupDoc :=
  if ¬g.members.contains userId then (.notMember, g)
  else if g.creator = userId then (.creatorCannotLeave, g)
  else (.ok, removeMember fresh userId g)

/-! ## Habit documents and the progress / habit controllers
(src/unnamed/part_003, src/backend/controllers/habitController.js) -/

structure HabitDoc where
  name : String
  description : String
  creator : Nat
  goal : String
  frequency : String
  duration : Nat
  isActive : Bool
  category : String
  targetValue : Nat
  unit : String
  completionDates : List Int
  createdAt : Int
deriving Repr, DecidableEq

/-- Association-list lookup standing for `Model.findById`. -/
def findById {α : Type} (docs : List (Nat × α)) (docId : Nat) : Option α :=
  (docs.find? fun p => p.1 = docId).map Prod.snd

/-- The group-membership query of `logProgress`: groups that contain the
habit, contain the user as member, and are active. -/
def isGroupMember (groups : List GroupDoc) (habitId userId : Nat) : Bool :=
  groups.any fun g => g.habits.contains habitId ∧ g.members.contains userId ∧ g.isActive

/-- Outcome of `logProgress`, tagged with the controller's HTTP status. -/
inductive LogResult where
  | badRequest
  | notFound
  | forbidden
  | logged (saved : PEntry)
deriving Repr, DecidableEq

/-- The HTTP status `logProgress` sends for each outcome. -/
def logResultStatus : LogResult → Nat
  | .badRequest => 400
  | .notFound => 404
  | .forbidden => 403
  | .logged _ => 200

/-- `logProgress` (src/unnamed/part_003): 400 without a habit id, 404 when the
habit is missing or inactive, 403 when the caller is neither the habit's
creator nor a member of an active group containing the habit; otherwise
normalize the requested date (defaulting to now) and upsert through
`Progress.createOrUpdate`.  Returns the outcome and the (possibly updated)
ledger. -/
def logProgress (now : Int) (habits : List (Nat × HabitDoc)) (groups : List GroupDoc)
    (ledger : List PEntry) (userId : Nat) (habitId : Option Nat) (date : Option Int)
    (completed : Bool) (value : Option Int) (notes : String) : LogResult × List PEntry :=
  match habitId with
  | none => (.badRequest, ledger)
  | some hid =>
    match findById habits hid with
    | none => (.notFound, ledger)
    | some habit =>
      if ¬habit.isActive then (.notFound, ledger)
      else
        let isCreator := habit.creator = userId
        if ¬isCreator ∧ ¬isGroupMember groups hid userId then (.forbidden, ledger)
        else
          let targetDate := startOfDay (date.getD now)
          let r := createOrUpdate now ledger userId hid targetDate completed value notes
          (.logged r.1, r.2)

/-- A user document: only the fields `deleteHabit` touches. -/
structure UserDoc where
  createdHabits : List Nat
  joinedGroups : List Nat
deriving Repr, DecidableEq

/-- The world state `deleteHabit` operates on. -/
structure World where
  habits : List (Nat × HabitDoc)
  users : List (Nat × UserDoc)
  groups : List (Nat × GroupDoc)
  ledger : List PEntry
deriving Repr, DecidableEq

/-- Outcome of `deleteHabit`, tagged with the controller's HTTP status. -/
inductive DeleteResult where
  | notFound
  | notAuthorized
  | deleted
deriving Repr, DecidableEq

/-- The HTTP status `deleteHabit` sends for each outcome. -/
def deleteResultStatus : DeleteResult → Nat
  | .notFound => 404
  | .notAuthorized => 403
  | .deleted => 200

/-- `deleteHabit` (src/backend/controllers/habitController.js): 404 when the
habit is missing, 403 when the caller is not its creator; otherwise soft
delete (`isActive := false` through `findByIdAndUpdate`, which touches no
other habit field), pull the habit id from the caller's `createdHabits`, and
pull it from the `habits` array of every group containing it.  Progress rows
are untouched. -/
def deleteHabit (w : World) (callerId habitId : Nat) : DeleteResult × World :=
  match findById w.habits habitId with
  | none => (.notFound, w)
  | some habit =>
    if habit.creator ≠ callerId then (.notAuthorized, w)
    else
      (.deleted,
        { w with
          habits := w.habits.map fun p =>
            if p.1 = habitId then (p.1, { p.2 with isActive := false }) else p,
          users := w.users.map fun p =>
            if p.1 = callerId
            then (p.1, { p.2 with createdHabits := p.2.createdHabits.filter (· ≠ habitId) })
            else p,
          groups := w.groups.map fun p =>
            if p.2.habits.contains habitId
            then (p.1, { p.2 with habits := p.2.habits.filter (· ≠ habitId) })
            else p })

/-! ## Claim C1 -/

/-- C1: the claim states that both streak implementations count consecutive
completed days ending at today, or ending at yesterday when today is not yet
completed.  The code contradicts this (and the Habit virtual contradicts its
own "Allow for yesterday if today is not completed yet" comment): with a
single completion yesterday (day 2, today being day 3) the claim demands a
streak of 1, but the Habit virtual compares the completion day against
`checkDate + dayMs` (the day after today) and returns 0, and
`Progress.getCurrentStreak` requires the most recent completed entry to be
dated today (`daysDiff === streak` starts at 0) and also returns 0. -/
theorem c1_streak_yesterday_code_bug :
    currentStreak (dayMs * 3 + 123) [dayMs * 2] = 0 ∧
    getCurrentStreak (dayMs * 3 + 123)
      [{ habit := 7, user := 5, date := dayMs * 2, completed := true,
         completedAt := some (dayMs * 2 + 9), notes := "", value := none,
         streak := 0, isLateEntry := false }] 5 7 = 0 := by
  constructor <;> rfl

/-! ## Claim C2 -/

/-- C2 counterexample: for a habit created exactly 10 days (in milliseconds)
before the current instant, with duration 30 and 7 completion dates, the
claim demands expected = 10 and a rate of 70; the code computes
`daysSinceCreation = floor(10) + 1 = 11`, so the rate is 700/11 ≈ 63.6, not
70. -/
theorem c2_completion_rate_counterexample :
    completionRate (dayMs * 10) 0 30 [0, 1, 2, 3, 4, 5, 6] = 700 / 11 ∧
    completionRate (dayMs * 10) 0 30 [0, 1, 2, 3, 4, 5, 6] ≠ 70 := by
  have h : completionRate (dayMs * 10) 0 30 [0, 1, 2, 3, 4, 5, 6] = 700 / 11 := by
    unfold completionRate
    norm_num [Int.mul_fdiv_cancel_left _ (by decide : (dayMs : Int) ≠ 0)]
  exact ⟨h, by rw [h]; norm_num⟩

/-- C2 amended: for a habit created exactly 10 days before the current date,
with configured duration 30 and 7 completed days, the completion-rate
calculator counts the creation day inclusively
(`daysSinceCreation = floor(msSinceCreation / dayMs) + 1 = 11`), yielding
expected = min(11, 30) = 11 and a rate of 700/11 ≈ 63.64 percent. -/
theorem c2_completion_rate_amended (now createdAt : Int) (dates : List Int)
    (hgap : now - createdAt = dayMs * 10) (hlen : dates.length = 7) :
    completionRate now createdAt 30 dates = 700 / 11 := by
  unfold completionRate
  rw [hgap, hlen]
  norm_num [Int.mul_fdiv_cancel_left _ (by decide : (dayMs : Int) ≠ 0)]

/-- C2 witness: the amended theorem evaluated at a habit created at the epoch,
observed 10 days later. -/
theorem c2_completion_rate_amended_witness :
    completionRate (dayMs * 10) 0 30 [0, 1, 2, 3, 4, 5, 6] = 700 / 11 :=
  c2_completion_rate_amended (dayMs * 10) 0 [0, 1, 2, 3, 4, 5, 6] (by decide) (by decide)

/-! ## Claim C8 -/

/-- C8: joining an active group whose member count equals `maxMembers`, as a
user who is not yet a member, is rejected before any mutation: the
controller answers the group-is-full conflict (HTTP 400, "Group is full")
and returns the group unchanged. -/
theorem c8_join_full_rejected (fresh : String) (userId : Nat) (code : Option String)
    (g : GroupDoc) (hactive : g.isActive = true)
    (hnm : g.members.contains userId = false)
    (hfull : g.members.length = g.maxMembers) :
    joinGroup fresh userId code g = (.full, g) ∧ groupResultStatus .full = 400 := by
  refine ⟨?_, rfl⟩
  have hmem : userId ∉ g.members := by simpa using hnm
  unfold joinGroup
  simp [hactive, hmem, groupIsFull, hfull]

/-- C8 witness: a concrete full group (two members, `maxMembers` 2) rejects a
third user's join request. -/
theorem c8_join_full_rejected_witness :
    joinGroup "Z" 9 none
      { name := "g", description := "", members := [0, 1], habits := [],
        creator := 0, isPrivate := false, maxMembers := 2, inviteCode := some "Z",
        tags := [], settings := { allowMemberInvites := true,
                                  allowMemberHabitCreation := true,
                                  requireApprovalForJoining := false },
        isActive := true }
      = (.full, { name := "g", description := "", members := [0, 1], habits := [],
                  creator := 0, isPrivate := false, maxMembers := 2, inviteCode := some "Z",
                  tags := [], settings := { allowMemberInvites := true,
                                            allowMemberHabitCreation := true,
                                            requireApprovalForJoining := false },
                  isActive := true }) ∧ groupResultStatus .full = 400 :=
  c8_join_full_rejected "Z" 9 none _ rfl rfl rfl

/-! ## Claim C5 -/

theorem mem_insertEntryDesc {x y : PEntry} {l : List PEntry} :
    y ∈ insertEntryDesc x l → y = x ∨ y ∈ l := by
  induction l with
  | nil => simp [insertEntryDesc]
  | cons z zs ih =>
    simp only [insertEntryDesc]
    split
    · intro h
      rcases List.mem_cons.mp h with h | h
      · exact Or.inl h
      · exact Or.inr h
    · intro h
      rcases List.mem_cons.mp h with h | h
      · exact Or.inr (List.mem_cons.mpr (Or.inl h))
      · rcases ih h with h | h
        · exact Or.inl h
        · exact Or.inr (List.mem_cons.mpr (Or.inr h))

theorem mem_sortEntriesDesc {y : PEntry} {l : List PEntry} :
    y ∈ sortEntriesDesc l → y ∈ l := by
  induction l with
  | nil => simp [sortEntriesDesc]
  | cons z zs ih =>
    intro h
    rcases mem_insertEntryDesc h with h | h
    · exact List.mem_cons.mpr (Or.inl h)
    · exact List.mem_cons.mpr (Or.inr (ih h))

/-- The floored day difference of two midnights vanishes exactly when they
are the same midnight. -/
theorem sub_fdiv_dayMs_eq_zero_iff {x y : Int} (hx : dayMs ∣ x) (hy : dayMs ∣ y) :
    (x - y).fdiv dayMs = 0 ↔ x = y := by
  obtain ⟨a, ha⟩ := hx
  obtain ⟨b, hb⟩ := hy
  subst ha hb
  rw [← Int.mul_sub, Int.mul_fdiv_cancel_left _ (by decide : (dayMs : Int) ≠ 0)]
  constructor
  · intro h
    have hab : a = b := by omega
    rw [hab]
  · intro h
    have hab : a = b := mul_left_cancel₀ (by decide : (dayMs : Int) ≠ 0) h
    omega

/-- C5 counterexample: with today being day 3, the completion-day set
consisting of day 4 only (tomorrow) contains neither today nor yesterday,
yet the Habit `currentStreak` virtual returns 1, because its mis-signed
tolerance branch matches a completion exactly one day after `checkDate`. -/
theorem c5_streak_tomorrow_counterexample :
    startOfDay (dayMs * 4) ≠ startOfDay (dayMs * 3 + 123) ∧
    startOfDay (dayMs * 4) ≠ startOfDay (dayMs * 3 + 123) - dayMs ∧
    currentStreak (dayMs * 3 + 123) [dayMs * 4] = 1 := by
  refine ⟨by decide, by decide, rfl⟩

/-- C5 amended: for every completion-day set in which neither today nor
yesterday is present, the streak is 0 in `Progress.getCurrentStreak`
unconditionally, and in the Habit `currentStreak` virtual provided the set
also contains no day after today (a completion dated tomorrow makes the
virtual return a positive streak through its `checkDate + dayMs` branch). -/
theorem c5_streak_absent_zero_amended :
    (∀ (now : Int) (dates : List Int),
      (∀ d ∈ dates, startOfDay d ≠ startOfDay now ∧
        startOfDay d ≠ startOfDay now - dayMs ∧ startOfDay d ≤ startOfDay now) →
      currentStreak now dates = 0) ∧
    (∀ (now : Int) (ledger : List PEntry) (userId habitId : Nat),
      (∀ e ∈ ledger, e.user = userId → e.habit = habitId → e.completed = true →
        startOfDay e.date ≠ startOfDay now ∧ startOfDay e.date ≠ startOfDay now - dayMs) →
      getCurrentStreak now ledger userId habitId = 0) := by
  constructor
  · intro now dates habs
    match dates with
    | [] => rfl
    | x :: xs =>
      unfold currentStreak
      rw [if_neg (by simp)]
      cases hs : sortDesc (x :: xs) with
      | nil => exact absurd hs (sortDesc_cons_ne_nil x xs)
      | cons h t =>
        have hmem : h ∈ x :: xs := mem_sortDesc (hs ▸ List.mem_cons_self h t)
        obtain ⟨h1, _, h3⟩ := habs h hmem
        have h2 : startOfDay h ≠ startOfDay now + dayMs := by
          intro hc
          rw [hc] at h3
          have hd : (0 : Int) < dayMs := by decide
          omega
        unfold streakGo
        rw [if_neg h1, if_neg h2]
  · intro now ledger userId habitId habs
    unfold getCurrentStreak
    cases hs : (sortEntriesDesc
        (ledger.filter fun e => e.user = userId ∧ e.habit = habitId)).take 365 with
    | nil => rfl
    | cons e t =>
      have hmem : e ∈ (sortEntriesDesc
          (ledger.filter fun e => e.user = userId ∧ e.habit = habitId)).take 365 := by
        rw [hs]; exact List.mem_cons_self e t
      have hmem2 : e ∈ ledger.filter fun e => e.user = userId ∧ e.habit = habitId :=
        mem_sortEntriesDesc (List.mem_of_mem_take hmem)
      rw [List.mem_filter] at hmem2
      obtain ⟨hml, hpred⟩ := hmem2
      simp only [decide_eq_true_eq] at hpred
      unfold currentStreakEntriesGo
      rw [if_neg ?_]
      intro ⟨hdiff, hcomp⟩
      obtain ⟨hne, _⟩ := habs e hml hpred.1 hpred.2 hcomp
      rw [Nat.cast_zero,
        sub_fdiv_dayMs_eq_zero_iff (startOfDay_dvd now) (startOfDay_dvd e.date)] at hdiff
      exact hne hdiff.symm

/-- C5 witness: the amended theorem applied to a completion two days before
today (day 1, with today day 3) for both implementations. -/
theorem c5_streak_absent_zero_amended_witness :
    currentStreak (dayMs * 3 + 123) [dayMs * 1] = 0 ∧
    getCurrentStreak (dayMs * 3 + 123)
      [{ habit := 7, user := 5, date := dayMs * 1, completed := true,
         completedAt := some (dayMs * 1 + 9), notes := "", value := none,
         streak := 0, isLateEntry := false }] 5 7 = 0 :=
  ⟨c5_streak_absent_zero_amended.1 (dayMs * 3 + 123) [dayMs * 1] (by decide),
   c5_streak_absent_zero_amended.2 (dayMs * 3 + 123) _ 5 7 (by decide)⟩

/-! ## Claim C6 -/

/-- The C6 invariant: `completedAt` is non-null iff `completed` is true. -/
def completedAtStamped (e : PEntry) : Prop := e.completedAt ≠ none ↔ e.completed = true

theorem preSave_completedAtStamped (now : Int) (e : PEntry) :
    completedAtStamped (preSave now e) := by
  rcases e with ⟨eh, eu, ed, ec, eca, en, ev, es, el⟩
  cases ec <;> cases eca <;> simp [completedAtStamped, preSave]

theorem upsertGo_fst_completedAtStamped (now : Int) (userId habitId : Nat) (target : Int)
    (completed : Bool) (value : Option Int) (notes : String) (l : List PEntry) :
    completedAtStamped (upsertGo now userId habitId target completed value notes l).1 := by
  induction l with
  | nil => exact preSave_completedAtStamped now _
  | cons e rest ih =>
    unfold upsertGo
    split
    · exact preSave_completedAtStamped now _
    · exact ih

/-- C6: after every save-mediated operation — the pre-save middleware itself,
`toggleCompletion`, `markCompleted`, `markIncomplete`, and the entry written
by `Progress.createOrUpdate` — `completedAt` is non-null iff `completed` is
true: the middleware stamps a timestamp on the transition to completed and
clears it on the transition to incomplete. -/
theorem c6_completed_at_iff_completed :
    (∀ (now : Int) (e : PEntry), completedAtStamped (preSave now e)) ∧
    (∀ (now : Int) (e : PEntry), completedAtStamped (toggleCompletion now e)) ∧
    (∀ (now : Int) (value : Option Int) (notes : String) (e : PEntry),
      completedAtStamped (markCompleted now value notes e)) ∧
    (∀ (now : Int) (e : PEntry), completedAtStamped (markIncomplete now e)) ∧
    (∀ (now : Int) (ledger : List PEntry) (userId habitId : Nat) (date : Int)
      (completed : Bool) (value : Option Int) (notes : String),
      completedAtStamped
        (createOrUpdate now ledger userId habitId date completed value notes).1) := by
  refine ⟨preSave_completedAtStamped, ?_, ?_, ?_, ?_⟩
  · intro now e
    exact preSave_completedAtStamped now _
  · intro now value notes e
    exact preSave_completedAtStamped now _
  · intro now e
    exact preSave_completedAtStamped now _
  · intro now ledger userId habitId date completed value notes
    exact upsertGo_fst_completedAtStamped now userId habitId _ completed value notes ledger

/-! ## Claim C4 -/

theorem filter_length_mono {α : Type} (p q : α → Bool) (himp : ∀ a, q a = true → p a = true)
    (l : List α) : (l.filter q).length ≤ (l.filter p).length := by
  induction l with
  | nil => simp
  | cons a l ih =>
    by_cases hq : q a = true
    · rw [List.filter_cons_of_pos hq, List.filter_cons_of_pos (himp a hq)]
      simpa using ih
    · rw [List.filter_cons_of_neg (by simpa using hq)]
      by_cases hp : p a = true
      · rw [List.filter_cons_of_pos hp]
        exact le_trans ih (by simp)
      · rw [List.filter_cons_of_neg (by simpa using hp)]
        exact ih

/-- C4: the completion rate lies in `[0, 100]`: the Habit `completionRate`
virtual clamps at 100 even when more completions are logged than days have
elapsed (the creation timestamp is not after `now`, and the configured
duration is at least 1, per the schema validators), and
`Progress.calculateCompletionRate` never leaves `[0, 100]` because the
completed rows it counts are a subset of the total rows. -/
theorem c4_completion_rate_bounds (now createdAt : Int) (duration : Nat) (dates : List Int)
    (ledger : List PEntry) (userId habitId days : Nat)
    (hc : createdAt ≤ now) (hd : 1 ≤ duration) :
    (0 ≤ completionRate now createdAt duration dates ∧
      completionRate now createdAt duration dates ≤ 100) ∧
    (0 ≤ calculateCompletionRate now ledger userId habitId days ∧
      calculateCompletionRate now ledger userId habitId days ≤ 100) := by
  constructor
  · unfold completionRate
    by_cases h0 : dates.length = 0
    · simp [h0]
    · rw [if_neg h0]
      have hfd : (0 : Int) ≤ (now - createdAt).fdiv dayMs :=
        Int.fdiv_nonneg (by omega) (by decide)
      have hexp : (1 : Int) ≤ min ((now - createdAt).fdiv dayMs + 1) (duration : Int) := by
        have : (1 : Int) ≤ (duration : Int) := by exact_mod_cast hd
        omega
      rw [if_neg (by omega)]
      have hexpq : (0 : ℚ) ≤ ((min ((now - createdAt).fdiv dayMs + 1) (duration : Int) : Int) : ℚ) := by
        exact_mod_cast le_trans (by norm_num) hexp
      constructor
      · exact le_min (by positivity) (by norm_num)
      · exact min_le_right _ _
  · unfold calculateCompletionRate
    have hcle : (ledger.filter fun e =>
          inWindow userId habitId (now - (days : Int) * dayMs) now e && e.completed).length ≤
        (ledger.filter (inWindow userId habitId (now - (days : Int) * dayMs) now)).length := by
      apply filter_length_mono
      intro a ha
      exact (Bool.and_eq_true _ _ |>.mp ha).1
    by_cases ht :
        0 < (ledger.filter (inWindow userId habitId (now - (days : Int) * dayMs) now)).length
    · rw [if_pos ht]
      have htq : (0 : ℚ) <
          ((ledger.filter (inWindow userId habitId (now - (days : Int) * dayMs) now)).length : ℚ) := by
        exact_mod_cast ht
      have hcq : ((ledger.filter fun e =>
            inWindow userId habitId (now - (days : Int) * dayMs) now e && e.completed).length : ℚ) ≤
          ((ledger.filter (inWindow userId habitId (now - (days : Int) * dayMs) now)).length : ℚ) := by
        exact_mod_cast hcle
      constructor
      · positivity
      · rw [div_mul_eq_mul_div, div_le_iff₀ htq]
        linarith
    · rw [if_neg ht]
      norm_num

/-- C4 witness: the bounds at a habit created one day before `now` with
duration 1 and one completion, and a one-row ledger window. -/
theorem c4_completion_rate_bounds_witness :
    (0 ≤ completionRate dayMs 0 1 [0] ∧ completionRate dayMs 0 1 [0] ≤ 100) ∧
    (0 ≤ calculateCompletionRate dayMs
        [{ habit := 7, user := 5, date := 0, completed := true,
           completedAt := some 1, notes := "", value := none,
           streak := 0, isLateEntry := false }] 5 7 30 ∧
      calculateCompletionRate dayMs
        [{ habit := 7, user := 5, date := 0, completed := true,
           completedAt := some 1, notes := "", value := none,
           streak := 0, isLateEntry := false }] 5 7 30 ≤ 100) :=
  c4_completion_rate_bounds dayMs 0 1 [0] _ 5 7 30 (by decide) (by decide)

/-! ## Claim C9 -/

/-- C9: `logProgress` on an existing habit rejects without touching the
ledger (404) when the habit is inactive, rejects without touching the ledger
(403) when the caller is neither the habit's creator nor a member of an
active group containing the habit, and otherwise performs exactly the
`Progress.createOrUpdate` upsert on the normalized requested day and reports
success. -/
theorem c9_log_progress_auth (now : Int) (habits : List (Nat × HabitDoc))
    (groups : List GroupDoc) (ledger : List PEntry) (userId hid : Nat)
    (date : Option Int) (completed : Bool) (value : Option Int) (notes : String)
    (habit : HabitDoc) (hfind : findById habits hid = some habit) :
    (habit.isActive = false →
      logProgress now habits groups ledger userId (some hid) date completed value notes =
        (.notFound, ledger)) ∧
    (habit.isActive = true → habit.creator ≠ userId →
      isGroupMember groups hid userId = false →
      logProgress now habits groups ledger userId (some hid) date completed value notes =
        (.forbidden, ledger)) ∧
    (habit.isActive = true →
      (habit.creator = userId ∨ isGroupMember groups hid userId = true) →
      logProgress now habits groups ledger userId (some hid) date completed value notes =
        (.logged (createOrUpdate now ledger userId hid (startOfDay (date.getD now))
            completed value notes).1,
          (createOrUpdate now ledger userId hid (startOfDay (date.getD now))
            completed value notes).2)) := by
  refine ⟨?_, ?_, ?_⟩
  · intro hinactive
    simp [logProgress, hfind, hinactive]
  · intro hactive hncr hnm
    simp [logProgress, hfind, hactive, hncr, hnm]
  · intro hactive hauth
    rcases hauth with hcr | hm
    · simp [logProgress, hfind, hactive, hcr]
    · simp [logProgress, hfind, hactive, hm]

/-- C9 witness: the creator of an active habit logs progress and the upsert
runs on the empty ledger. -/
theorem c9_log_progress_auth_witness :
    logProgress 0
      [(1, { name := "h", description := "", creator := 5, goal := "",
             frequency := "daily", duration := 30, isActive := true,
             category := "general", targetValue := 1, unit := "times",
             completionDates := [], createdAt := 0 })]
      [] [] 5 (some 1) none true none "" =
      (.logged (createOrUpdate 0 [] 5 1 (startOfDay ((none : Option Int).getD 0))
          true none "").1,
        (createOrUpdate 0 [] 5 1 (startOfDay ((none : Option Int).getD 0))
          true none "").2) :=
  (c9_log_progress_auth 0
      [(1, { name := "h", description := "", creator := 5, goal := "",
             frequency := "daily", duration := 30, isActive := true,
             category := "general", targetValue := 1, unit := "times",
             completionDates := [], createdAt := 0 })]
      [] [] 5 1 none true none ""
      { name := "h", description := "", creator := 5, goal := "",
        frequency := "daily", duration := 30, isActive := true,
        category := "general", targetValue := 1, unit := "times",
        completionDates := [], createdAt := 0 }
      (by rfl)).2.2 rfl (Or.inl rfl)

/-! ## Claim C10 -/

theorem findById_map {α : Type} (f : Nat × α → Nat × α)
    (hf : ∀ p, (f p).1 = p.1) (l : List (Nat × α)) (i : Nat) :
    findById (l.map f) i = (findById l i).map (fun a => (f (i, a)).2) := by
  induction l with
  | nil => rfl
  | cons p ps ih =>
    by_cases hpi : p.1 = i
    · unfold findById
      rw [List.map_cons,
        List.find?_cons_of_pos _ (by simpa [hf] using hpi),
        List.find?_cons_of_pos _ (by simpa using hpi)]
      have hp : p = (i, p.2) := by subst hpi; rfl
      rw [hp]
      rfl
    · unfold findById
      rw [List.map_cons,
        List.find?_cons_of_neg _ (by simpa [hf] using hpi),
        List.find?_cons_of_neg _ (by simpa using hpi)]
      exact ih

/-- C10: when the creator deletes a habit, the habit document is only marked
inactive (every other field survives), the progress ledger is untouched,
every other habit is untouched, the habit id is pulled from the caller's
`createdHabits` (other users untouched), and the habit id is pulled from
every group's `habits` list; a non-creator's attempt returns 403 and leaves
the world unchanged. -/
theorem c10_delete_habit_frame (w : World) (callerId habitId : Nat) (habit : HabitDoc)
    (hfind : findById w.habits habitId = some habit) :
    (habit.creator ≠ callerId →
      deleteHabit w callerId habitId = (.notAuthorized, w)) ∧
    (habit.creator = callerId →
      (deleteHabit w callerId habitId).1 = .deleted ∧
      (deleteHabit w callerId habitId).2.ledger = w.ledger ∧
      findById (deleteHabit w callerId habitId).2.habits habitId =
        some { habit with isActive := false } ∧
      (∀ hid2, hid2 ≠ habitId →
        findById (deleteHabit w callerId habitId).2.habits hid2 =
          findById w.habits hid2) ∧
      (∀ uid u, findById w.users uid = some u →
        findById (deleteHabit w callerId habitId).2.users uid =
          some (if uid = callerId
                then { u with createdHabits := u.createdHabits.filter (· ≠ habitId) }
                else u)) ∧
      (∀ gid g, findById w.groups gid = some g →
        findById (deleteHabit w callerId habitId).2.groups gid =
          some { g with habits := g.habits.filter (· ≠ habitId) })) := by
  constructor
  · intro hnc
    simp [deleteHabit, hfind, hnc]
  · intro hcr
    have hdel : deleteHabit w callerId habitId =
        (.deleted,
          { w with
            habits := w.habits.map fun p =>
              if p.1 = habitId then (p.1, { p.2 with isActive := false }) else p,
            users := w.users.map fun p =>
              if p.1 = callerId
              then (p.1, { p.2 with createdHabits := p.2.createdHabits.filter (· ≠ habitId) })
              else p,
            groups := w.groups.map fun p =>
              if p.2.habits.contains habitId
              then (p.1, { p.2 with habits := p.2.habits.filter (· ≠ habitId) })
              else p }) := by
      simp [deleteHabit, hfind, hcr]
    refine ⟨by rw [hdel], by rw [hdel], ?_, ?_, ?_, ?_⟩
    · rw [hdel]
      rw [findById_map (fun p => if p.1 = habitId then (p.1, { p.2 with isActive := false }) else p)
        (fun p => by by_cases h : p.1 = habitId <;> simp [h]) w.habits habitId, hfind]
      simp
    · intro hid2 hne
      rw [hdel]
      rw [findById_map (fun p => if p.1 = habitId then (p.1, { p.2 with isActive := false }) else p)
        (fun p => by by_cases h : p.1 = habitId <;> simp [h]) w.habits hid2]
      cases hf2 : findById w.habits hid2 with
      | none => rfl
      | some a => simp [hne]
    · intro uid u hu
      rw [hdel]
      rw [findById_map (fun p =>
            if p.1 = callerId
            then (p.1, { p.2 with createdHabits := p.2.createdHabits.filter (· ≠ habitId) })
            else p)
        (fun p => by by_cases h : p.1 = callerId <;> simp [h]) w.users uid, hu]
      by_cases huid : uid = callerId <;> simp [huid]
    · intro gid g hg
      rw [hdel]
      rw [findById_map (fun p =>
            if p.2.habits.contains habitId
            then (p.1, { p.2 with habits := p.2.habits.filter (· ≠ habitId) })
            else p)
        (fun p => by by_cases h : habitId ∈ p.2.habits <;> simp [h]) w.groups gid, hg]
      by_cases hmem : habitId ∈ g.habits
      · simp [hmem]
      · have hfil : g.habits.filter (fun x => !decide (x = habitId)) = g.habits := by
          apply List.filter_eq_self.mpr
          intro x hx
          simp only [Bool.not_eq_eq_eq_not, Bool.not_true, decide_eq_false_iff_not]
          intro hxh
          exact hmem (hxh ▸ hx)
        simp [hmem, hfil]

/-- A concrete habit document used to instantiate theorems. -/
def sampleHabit : HabitDoc :=
  { name := "run", description := "", creator := 5, goal := "",
    frequency := "daily", duration := 30, isActive := true,
    category := "general", targetValue := 1, unit := "times",
    completionDates := [], createdAt := 0 }

/-- A concrete world with one habit, its creator, one group containing the
habit, and one progress row. -/
def sampleWorld : World :=
  { habits := [(1, sampleHabit)],
    users := [(5, { createdHabits := [1, 2], joinedGroups := [3] })],
    groups := [(3, { name := "g", description := "", members := [5], habits := [1, 4],
                     creator := 5, isPrivate := false, maxMembers := 50,
                     inviteCode := some "Z", tags := [],
                     settings := { allowMemberInvites := true,
                                   allowMemberHabitCreation := true,
                                   requireApprovalForJoining := false },
                     isActive := true })],
    ledger := [{ habit := 1, user := 5, date := 0, completed := true,
                 completedAt := some 1, notes := "", value := none,
                 streak := 0, isLateEntry := false }] }

/-- C10 witness: the creator deletes the habit in the concrete world; the
result is a soft delete that leaves the ledger alone. -/
theorem c10_delete_habit_frame_witness :
    (deleteHabit sampleWorld 5 1).1 = .deleted ∧
    (deleteHabit sampleWorld 5 1).2.ledger = sampleWorld.ledger ∧
    findById (deleteHabit sampleWorld 5 1).2.habits 1 =
      some { sampleHabit with isActive := false } :=
  let h := (c10_delete_habit_frame sampleWorld 5 1 sampleHabit rfl).2 rfl
  ⟨h.1, h.2.1, h.2.2.1⟩

/-! ## Claim C3 -/

/-- The uniqueness key of the compound index
`{ habit: 1, user: 1, date: 1 }` (written user-first here). -/
def entryKey (e : PEntry) : Nat × Nat × Int := (e.user, e.habit, e.date)

/-- Every ledger row's `date` is already normalized to the start of its day
(the save middleware guarantees this for every stored row). -/
def Normalized (l : List PEntry) : Prop := ∀ e ∈ l, startOfDay e.date = e.date

/-- At most one ledger row per `(user, habit, calendarDay)` tuple. -/
def UniqueKeys (l : List PEntry) : Prop := l.Pairwise fun a b => entryKey a ≠ entryKey b

theorem preSave_user (now : Int) (e : PEntry) : (preSave now e).user = e.user := by
  rcases e with ⟨eh, eu, ed, ec, eca, en, ev, es, el⟩
  cases ec <;> cases eca <;> rfl

theorem preSave_habit (now : Int) (e : PEntry) : (preSave now e).habit = e.habit := by
  rcases e with ⟨eh, eu, ed, ec, eca, en, ev, es, el⟩
  cases ec <;> cases eca <;> rfl

theorem preSave_date (now : Int) (e : PEntry) : (preSave now e).date = startOfDay e.date := by
  rcases e with ⟨eh, eu, ed, ec, eca, en, ev, es, el⟩
  cases ec <;> cases eca <;> rfl

theorem upsertUpdate_user (now : Int) (c : Bool) (v : Option Int) (n : String) (e : PEntry) :
    (upsertUpdate now c v n e).user = e.user := by
  simp only [upsertUpdate]
  split_ifs <;> rfl

theorem upsertUpdate_habit (now : Int) (c : Bool) (v : Option Int) (n : String) (e : PEntry) :
    (upsertUpdate now c v n e).habit = e.habit := by
  simp only [upsertUpdate]
  split_ifs <;> rfl

theorem upsertUpdate_date (now : Int) (c : Bool) (v : Option Int) (n : String) (e : PEntry) :
    (upsertUpdate now c v n e).date = e.date := by
  simp only [upsertUpdate]
  split_ifs <;> rfl

/-- Two normalized days within one day of each other coincide. -/
theorem normalized_range_eq {target x : Int} (hx : startOfDay x = x)
    (ht : startOfDay target = target) (h1 : target ≤ x) (h2 : x < target + dayMs) :
    x = target := by
  obtain ⟨a, ha⟩ : dayMs ∣ x := hx ▸ startOfDay_dvd x
  obtain ⟨b, hb⟩ : dayMs ∣ target := ht ▸ startOfDay_dvd target
  have hday : dayMs = 86400000 := rfl
  rw [ha, hb, hday] at h1 h2 ⊢
  omega

/-- The key of the row saved by the update branch equals the key of the row
it replaces. -/
theorem saved_key_eq (now : Int) (c : Bool) (v : Option Int) (n : String) (e : PEntry)
    (he : startOfDay e.date = e.date) :
    entryKey (preSave now (upsertUpdate now c v n e)) = entryKey e := by
  unfold entryKey
  rw [preSave_user, preSave_habit, preSave_date, upsertUpdate_user, upsertUpdate_habit,
    upsertUpdate_date, he]

theorem upsertGo_normalized (now : Int) (u h : Nat) (target : Int) (c : Bool)
    (v : Option Int) (n : String) (l : List PEntry) (hl : Normalized l) :
    Normalized (upsertGo now u h target c v n l).2 := by
  induction l with
  | nil =>
    intro x hx
    simp only [upsertGo, List.mem_singleton] at hx
    rw [hx, preSave_date]
    exact startOfDay_idem _
  | cons e rest ih =>
    unfold upsertGo
    split
    · intro x hx
      rcases List.mem_cons.mp hx with hx | hx
      · rw [hx, preSave_date]
        exact startOfDay_idem _
      · exact hl x (List.mem_cons.mpr (Or.inr hx))
    · intro x hx
      rcases List.mem_cons.mp hx with hx | hx
      · exact hl x (hx ▸ List.mem_cons_self e rest)
      · exact ih (fun y hy => hl y (List.mem_cons.mpr (Or.inr hy))) x hx

/-- Every row of the ledger produced by the upsert walk carries either the
upserted key or the key of a pre-existing row. -/
theorem upsertGo_key_mem (now : Int) (u h : Nat) (target : Int) (c : Bool)
    (v : Option Int) (n : String) (l : List PEntry) (hl : Normalized l)
    (ht : startOfDay target = target) :
    ∀ x ∈ (upsertGo now u h target c v n l).2,
      entryKey x = (u, h, target) ∨ ∃ y ∈ l, entryKey x = entryKey y := by
  induction l with
  | nil =>
    intro x hx
    simp only [upsertGo, List.mem_singleton] at hx
    left
    rw [hx]
    unfold entryKey
    rw [preSave_user, preSave_habit, preSave_date]
    simp [upsertFresh, ht]
  | cons e rest ih =>
    unfold upsertGo
    split
    · intro x hx
      rcases List.mem_cons.mp hx with hx | hx
      · right
        exact ⟨e, List.mem_cons_self e rest,
          hx ▸ saved_key_eq now c v n e (hl e (List.mem_cons_self e rest))⟩
      · exact Or.inr ⟨x, List.mem_cons.mpr (Or.inr hx), rfl⟩
    · intro x hx
      rcases List.mem_cons.mp hx with hx | hx
      · exact Or.inr ⟨e, List.mem_cons_self e rest, hx ▸ rfl⟩
      · rcases ih (fun y hy => hl y (List.mem_cons.mpr (Or.inr hy))) x hx with hk | ⟨y, hy, hk⟩
        · exact Or.inl hk
        · exact Or.inr ⟨y, List.mem_cons.mpr (Or.inr hy), hk⟩

/-- A row whose key is the upserted key satisfies the `findOne` filter. -/
theorem upsertMatch_of_key {u h : Nat} {target : Int} {e : PEntry}
    (hk : entryKey e = (u, h, target)) : upsertMatch u h target e = true := by
  unfold entryKey at hk
  obtain ⟨h1, h2, h3⟩ : e.user = u ∧ e.habit = h ∧ e.date = target := by
    simpa [Prod.ext_iff] using hk
  unfold upsertMatch
  have hd : (0 : Int) < dayMs := by decide
  simp [h1, h2, h3]
  omega

theorem upsertGo_uniqueKeys (now : Int) (u h : Nat) (target : Int) (c : Bool)
    (v : Option Int) (n : String) (l : List PEntry) (hl : Normalized l)
    (hu : UniqueKeys l) (ht : startOfDay target = target) :
    UniqueKeys (upsertGo now u h target c v n l).2 := by
  induction l with
  | nil => exact List.pairwise_singleton _ _
  | cons e rest ih =>
    have hlrest : Normalized rest := fun y hy => hl y (List.mem_cons.mpr (Or.inr hy))
    rcases List.pairwise_cons.mp hu with ⟨hhead, htail⟩
    unfold upsertGo
    split
    · refine List.pairwise_cons.mpr ⟨?_, htail⟩
      intro b hb
      rw [saved_key_eq now c v n e (hl e (List.mem_cons_self e rest))]
      exact hhead b hb
    · rename_i hmatch
      refine List.pairwise_cons.mpr ⟨?_, ih hlrest htail⟩
      intro b hb
      rcases upsertGo_key_mem now u h target c v n rest hlrest ht b hb with hk | ⟨y, hy, hk⟩
      · intro hc
        exact hmatch (upsertMatch_of_key (hc.trans hk))
      · rw [hk]
        exact hhead y hy

theorem createOrUpdate_normalized (now : Int) (l : List PEntry) (u h : Nat) (d : Int)
    (c : Bool) (v : Option Int) (n : String) (hl : Normalized l) :
    Normalized (createOrUpdate now l u h d c v n).2 :=
  upsertGo_normalized now u h (startOfDay d) c v n l hl

theorem createOrUpdate_uniqueKeys (now : Int) (l : List PEntry) (u h : Nat) (d : Int)
    (c : Bool) (v : Option Int) (n : String) (hl : Normalized l) (hu : UniqueKeys l) :
    UniqueKeys (createOrUpdate now l u h d c v n).2 :=
  upsertGo_uniqueKeys now u h (startOfDay d) c v n l hl hu (startOfDay_idem d)

/-- One call to the progress upsert, as issued by `logProgress`. -/
structure UpsertOp where
  now : Int
  userId : Nat
  habitId : Nat
  date : Int
  completed : Bool
  value : Option Int
  notes : String

/-- Apply one upsert to the ledger, keeping only the stored rows. -/
def applyUpsert (l : List PEntry) (op : UpsertOp) : List PEntry :=
  (createOrUpdate op.now l op.userId op.habitId op.date op.completed op.value op.notes).2

/-- C3: starting from any ledger whose rows are day-normalized and whose
`(user, habit, calendarDay)` keys are pairwise distinct, any sequence of
`Progress.createOrUpdate` calls preserves both properties: a repeated call
for the same key updates the matching row in place, so at most one ledger
row exists per `(user, habit, calendarDay)` tuple. -/
theorem c3_upsert_unique_key (ops : List UpsertOp) (l0 : List PEntry)
    (hnorm : Normalized l0) (huniq : UniqueKeys l0) :
    Normalized (ops.foldl applyUpsert l0) ∧ UniqueKeys (ops.foldl applyUpsert l0) := by
  induction ops generalizing l0 with
  | nil => exact ⟨hnorm, huniq⟩
  | cons op ops ih =>
    exact ih (applyUpsert l0 op)
      (createOrUpdate_normalized op.now l0 op.userId op.habitId op.date op.completed
        op.value op.notes hnorm)
      (createOrUpdate_uniqueKeys op.now l0 op.userId op.habitId op.date op.completed
        op.value op.notes hnorm huniq)

/-- C3 witness: two upserts with the same `(user, habit, day)` key starting
from the empty ledger keep the keys unique. -/
theorem c3_upsert_unique_key_witness :
    Normalized ([⟨0, 5, 1, dayMs * 2 + 7, true, none, "hi"⟩,
        ⟨0, 5, 1, dayMs * 2 + 7, false, some 3, ""⟩].foldl applyUpsert []) ∧
    UniqueKeys ([⟨0, 5, 1, dayMs * 2 + 7, true, none, "hi"⟩,
        ⟨0, 5, 1, dayMs * 2 + 7, false, some 3, ""⟩].foldl applyUpsert []) :=
  c3_upsert_unique_key _ [] (by intro e he; cases he) List.Pairwise.nil

/-! ## Claim C7 -/

/-- The C7 invariant: the creator is a member, members are pairwise distinct,
and the member count does not exceed `maxMembers`. -/
def GroupInv (g : GroupDoc) : Prop :=
  g.creator ∈ g.members ∧ g.members.Nodup ∧ g.members.length ≤ g.maxMembers

theorem mem_dedup {y : Nat} {l : List Nat} : y ∈ dedup l ↔ y ∈ l := by
  induction l with
  | nil => simp [dedup]
  | cons x xs ih =>
    simp only [dedup, List.mem_cons, List.mem_filter]
    constructor
    · rintro (h | ⟨h, _⟩)
      · exact Or.inl h
      · exact Or.inr (ih.mp h)
    · rintro (h | h)
      · exact Or.inl h
      · by_cases hy : y = x
        · exact Or.inl hy
        · exact Or.inr ⟨ih.mpr h, by simpa using hy⟩

theorem dedup_nodup (l : List Nat) : (dedup l).Nodup := by
  induction l with
  | nil => simp [dedup]
  | cons x xs ih =>
    simp only [dedup]
    refine List.nodup_cons.mpr ⟨?_, ih.filter _⟩
    intro hx
    have := (List.mem_filter.mp hx).2
    simp at this

theorem dedup_length_le (l : List Nat) : (dedup l).length ≤ l.length := by
  induction l with
  | nil => simp [dedup]
  | cons x xs ih =>
    simp only [dedup, List.length_cons]
    have := List.length_filter_le (· ≠ x) (dedup xs)
    omega

theorem groupPreSave_creator (fresh : String) (g : GroupDoc) :
    (groupPreSave fresh g).creator = g.creator := by
  simp only [groupPreSave]
  split_ifs <;> rfl

theorem groupPreSave_maxMembers (fresh : String) (g : GroupDoc) :
    (groupPreSave fresh g).maxMembers = g.maxMembers := by
  simp only [groupPreSave]
  split_ifs <;> rfl

theorem groupPreSave_members_of_mem (fresh : String) (g : GroupDoc)
    (hc : g.creator ∈ g.members) :
    (groupPreSave fresh g).members = dedup g.members := by
  simp only [groupPreSave]
  split_ifs with h1 h2 h2 <;> simp_all

/-- After a save with the creator already present, the invariant follows from
a member-count bound on the raw array. -/
theorem groupPreSave_inv (fresh : String) (g : GroupDoc) (hc : g.creator ∈ g.members)
    (hlen : g.members.length ≤ g.maxMembers) : GroupInv (groupPreSave fresh g) := by
  refine ⟨?_, ?_, ?_⟩
  · rw [groupPreSave_creator, groupPreSave_members_of_mem fresh g hc]
    exact mem_dedup.mpr hc
  · rw [groupPreSave_members_of_mem fresh g hc]
    exact dedup_nodup _
  · rw [groupPreSave_members_of_mem fresh g hc, groupPreSave_maxMembers]
    exact le_trans (dedup_length_le _) hlen

theorem addMember_inv (fresh : String) (uid : Nat) (g g1 : GroupDoc) (hinv : GroupInv g)
    (h : addMember fresh uid g = .ok g1) : GroupInv g1 := by
  unfold addMember at h
  split at h
  · exact absurd h (by simp)
  · rename_i hnf
    have hfull : g.members.length < g.maxMembers := by
      simpa [groupIsFull, Nat.lt_iff_add_one_le, Nat.not_le] using hnf
    split at h
    · rename_i hnm
      have h1 : g1 = groupPreSave fresh { g with members := g.members ++ [uid] } := by
        simpa using h.symm
      rw [h1]
      exact groupPreSave_inv fresh _ (by simpa using Or.inl hinv.1) (by simpa using hfull)
    · have h1 : g1 = groupPreSave fresh g := by simpa using h.symm
      rw [h1]
      exact groupPreSave_inv fresh g hinv.1 hinv.2.2

theorem joinGroup_inv (fresh : String) (uid : Nat) (code : Option String) (g : GroupDoc)
    (hinv : GroupInv g) : GroupInv (joinGroup fresh uid code g).2 := by
  unfold joinGroup
  split_ifs <;> try exact hinv
  all_goals cases hadd : addMember fresh uid g with
    | ok g1 =>
      simp only [hadd]
      exact addMember_inv fresh uid g g1 hinv hadd
    | error msg =>
      simp only [hadd]
      exact hinv

theorem leaveGroup_inv (fresh : String) (uid : Nat) (g : GroupDoc)
    (hinv : GroupInv g) : GroupInv (leaveGroup fresh uid g).2 := by
  by_cases h1 : uid ∈ g.members
  · by_cases h2 : g.creator = uid
    · unfold leaveGroup
      rw [if_neg (by simpa using h1), if_pos h2]
      exact hinv
    · unfold leaveGroup
      rw [if_neg (by simpa using h1), if_neg h2]
      show GroupInv (removeMember fresh uid g)
      unfold removeMember
      apply groupPreSave_inv
      · simp only [List.mem_filter]
        exact ⟨hinv.1, by simpa using h2⟩
      · simpa using le_trans (List.length_filter_le _ _) hinv.2.2
  · unfold leaveGroup
    rw [if_pos (by simpa using h1)]
    exact hinv

theorem updateGroup_members (callerId : Nat) (name desc : Option String)
    (priv : Option Bool) (mm : Option Nat) (tags : Option (List String))
    (stg : Option GroupSettings) (g : GroupDoc) :
    (updateGroup callerId name desc priv mm tags stg g).2.members = g.members ∧
    (updateGroup callerId name desc priv mm tags stg g).2.creator = g.creator := by
  unfold updateGroup
  split_ifs <;> exact ⟨rfl, rfl⟩

/-- C7 counterexample: a group created with `maxMembers` 2, joined by a
second user, then updated by its creator with `maxMembers` 1: every
operation succeeds, and the final group has 2 members with `maxMembers` 1,
violating the claimed invariant `|members| ≤ maxMembers` after an update. -/
theorem c7_update_maxmembers_counterexample :
    (createGroup "K" 0 "grp" "" false (some 2) []).map (fun g0 =>
      ((joinGroup "K" 1 none g0).1,
        (updateGroup 0 none none none (some 1) none none (joinGroup "K" 1 none g0).2).1,
        (updateGroup 0 none none none (some 1) none none
          (joinGroup "K" 1 none g0).2).2.members.length,
        (updateGroup 0 none none none (some 1) none none
          (joinGroup "K" 1 none g0).2).2.maxMembers)) =
      .ok (.ok, .ok, 2, 1) := by
  rfl

/-- C7 amended: the creator is always a member after every group operation
(create, update, join, leave), and the member count stays within
`maxMembers` under create, join and leave; updating a group, however, can
set `maxMembers` below the current member count, so `|members| ≤ maxMembers`
is not preserved by update. -/
theorem c7_group_invariant_amended :
    (∀ (fresh : String) (creatorId : Nat) (name desc : String) (priv : Bool)
        (mm : Option Nat) (tags : List String) (g : GroupDoc),
      createGroup fresh creatorId name desc priv mm tags = .ok g → GroupInv g) ∧
    (∀ (fresh : String) (uid : Nat) (code : Option String) (g : GroupDoc),
      GroupInv g → GroupInv (joinGroup fresh uid code g).2) ∧
    (∀ (fresh : String) (uid : Nat) (g : GroupDoc),
      GroupInv g → GroupInv (leaveGroup fresh uid g).2) ∧
    (∀ (callerId : Nat) (name desc : Option String) (priv : Option Bool) (mm : Option Nat)
        (tags : Option (List String)) (stg : Option GroupSettings) (g : GroupDoc),
      GroupInv g →
      (updateGroup callerId name desc priv mm tags stg g).2.creator ∈
        (updateGroup callerId name desc priv mm tags stg g).2.members ∧
      (updateGroup callerId name desc priv mm tags stg g).2.members.Nodup) := by
  refine ⟨?_, joinGroup_inv, leaveGroup_inv, ?_⟩
  · intro fresh creatorId name desc priv mm tags g h
    unfold createGroup at h
    split at h
    · exact absurd h (by simp)
    · rename_i hv
      have hm : 1 ≤ mm.getD 50 := by omega
      have hg : g = groupPreSave fresh
          { name := name, description := desc, members := [creatorId], habits := [],
            creator := creatorId, isPrivate := priv, maxMembers := mm.getD 50,
            inviteCode := none, tags := tags,
            settings := { allowMemberInvites := true, allowMemberHabitCreation := true,
                          requireApprovalForJoining := false },
            isActive := true } := by
        simpa using h.symm
      rw [hg]
      exact groupPreSave_inv fresh _ (by simp) (by simpa using hm)
  · intro callerId name desc priv mm tags stg g hinv
    obtain ⟨hmem, hcr⟩ := updateGroup_members callerId name desc priv mm tags stg g
    rw [hmem, hcr]
    exact ⟨hinv.1, hinv.2.1⟩

/-- A concrete group used to instantiate the amended C7 theorem. -/
def witnessGroup : GroupDoc :=
  { name := "w", description := "", members := [0], habits := [], creator := 0,
    isPrivate := false, maxMembers := 2, inviteCode := some "K", tags := [],
    settings := { allowMemberInvites := true, allowMemberHabitCreation := true,
                  requireApprovalForJoining := false },
    isActive := true }

/-- C7 witness: a second user joins the concrete two-seat group and the
invariant holds afterwards. -/
theorem c7_group_invariant_amended_witness :
    GroupInv (joinGroup "K" 2 none witnessGroup).2 :=
  c7_group_invariant_amended.2.1 "K" 2 none witnessGroup
    (by unfold GroupInv; refine ⟨?_, ?_, ?_⟩ <;> decide)
